import Mathlib

/-!
Shallow embedding of `src/app.py` (WhatsApp Work Hours Calculator).

Conventions of the embedding:
* A Python `datetime` is an `Int`: seconds since 1970-01-01 00:00:00
  (day number times 86400 plus seconds-of-day).  A calendar date is the
  day number `ts.fdiv 86400`.
* Python `float` hours are modelled as `ℚ`; `round(x, 2)` is modelled by
  `round2` (round-half-up at two decimals — the binary-float tie behaviour
  of CPython's `round` is not modelled; no statement below depends on ties).
* `pandas` dataframes are lists of records; `groupby` is modelled by
  enumerating the distinct keys and filtering; `sort_values` is modelled by
  an insertion sort (stable; ties between equal sort keys keep frame order).
* Strings are processed as `List Char`; the regular expressions of the
  source are translated into deterministic scanners, which is faithful here
  because in each regex every bounded-repetition group is followed by a
  literal that cannot extend the group (so backtracking never changes the
  outcome); `\d`, `\w`, `\s` are modelled on their ASCII cores plus the
  non-breaking-space characters relevant to WhatsApp exports.
* CPython `_strptime` restricts each directive to a sub-pattern
  (`%m : 1[0-2]|0[1-9]|[1-9]`, `%d : 3[01]|[12]\d|0[1-9]|[1-9]`,
  `%y : \d\d`, `%I : 1[0-2]|0[1-9]|[1-9]`, `%M : [0-5]\d|\d`,
  `%S : 6[0-1]|[0-5]\d|\d`, `%p : am/pm` case-insensitively, a literal
  space matching one or more whitespace characters) and requires the whole
  string to be consumed; the date is then validated by the `datetime`
  constructor.  These scanners are reproduced below.
-/

namespace ClockApp

abbrev Chars := List Char

/-! ### Character classes and low-level string scanning -/

def isDigitCh (c : Char) : Bool := '0' ≤ c && c ≤ '9'

def isWordCh (c : Char) : Bool := c.isAlphanum || c = '_'

def isSpaceCh (c : Char) : Bool :=
  c = ' ' || c = '\t' || c = '\n' || c = '\r' || c = '\x0b' || c = '\x0c' ||
  c = '\u00A0' || c = '\u202F' || c = '\u2009'

def digitVal (c : Char) : Nat := c.toNat - '0'.toNat

/-- Test that `p` is a leading segment of `s`. -/
def startsWithCh : Chars → Chars → Bool
  | [], _ => true
  | _ :: _, [] => false
  | a :: p, b :: s => a = b && startsWithCh p s

/-- Test that `p` occurs contiguously somewhere in `s`
(the Python membership test on strings, used by `calculate_hours` at line 60). -/
def hasSubstr (p : Chars) : Chars → Bool
  | [] => startsWithCh p []
  | c :: t => startsWithCh p (c :: t) || hasSubstr p t

/-- Whole-word match of `kw` at the head of `s`: `kw` is a leading segment
and the following character (if any) is not a word character. -/
def wwHere (kw s : Chars) : Bool :=
  startsWithCh kw s &&
    (match s.drop kw.length with
     | [] => true
     | c :: _ => !isWordCh c)

/-- Scan of `re.search` for `\bkw\b`: `prevOk` records whether the previous
character (if any) was a non-word character, i.e. whether a `\b` boundary
holds at the current position. -/
def wwSearch (kw : Chars) (prevOk : Bool) : Chars → Bool
  | [] => false
  | c :: t => (prevOk && wwHere kw (c :: t)) || wwSearch kw (!isWordCh c) t

/-- Search as `re.search` does for a whole-word keyword made of word characters. -/
def hasWholeWord (kw s : Chars) : Bool := wwSearch kw true s

def stripChars (l : Chars) : Chars :=
  ((l.dropWhile isSpaceCh).reverse.dropWhile isSpaceCh).reverse

def lowerChars (l : Chars) : Chars := l.map Char.toLower

/-! ### Proleptic Gregorian calendar arithmetic

Day numbers are days since 1970-01-01 (Howard Hinnant's `days_from_civil`
and `civil_from_days` algorithms, which are what `datetime.date` computes). -/

def isLeap (y : Int) : Bool := y % 4 = 0 && (y % 100 ≠ 0 || y % 400 = 0)

def daysInMonth (y : Int) (m : Nat) : Nat :=
  if m = 2 then (if isLeap y then 29 else 28)
  else if m = 4 ∨ m = 6 ∨ m = 9 ∨ m = 11 then 30
  else 31

def daysFromCivil (y : Int) (m d : Nat) : Int :=
  let yAdj : Int := if m ≤ 2 then y - 1 else y
  let era : Int := yAdj.fdiv 400
  let yoe : Int := yAdj - era * 400
  let mp : Int := if m ≤ 2 then (m : Int) + 9 else (m : Int) - 3
  let doy : Int := (153 * mp + 2).fdiv 5 + (d : Int) - 1
  let doe : Int := yoe * 365 + yoe.fdiv 4 - yoe.fdiv 100 + doy
  era * 146097 + doe - 719468

def civilFromDays (z0 : Int) : Int × Nat × Nat :=
  let z := z0 + 719468
  let era := z.fdiv 146097
  let doe := z - era * 146097
  let yoe := (doe - doe.fdiv 1460 + doe.fdiv 36524 - doe.fdiv 146096).fdiv 365
  let y := yoe + era * 400
  let doy := doe - (365 * yoe + yoe.fdiv 4 - yoe.fdiv 100)
  let mp := (5 * doy + 2).fdiv 153
  let d := doy - (153 * mp + 2).fdiv 5 + 1
  let m := if mp < 10 then mp + 3 else mp - 9
  ((if m ≤ 2 then y + 1 else y), m.toNat, d.toNat)

def yearOfDay (z : Int) : Int := (civilFromDays z).1

/-- Python's `date.weekday()`: Monday = 0 … Sunday = 6
(1970-01-01, day 0, was a Thursday). -/
def weekdayOfDay (z : Int) : Nat := ((z + 3).emod 7).toNat

/-- ISO-8601 `(year, week)` of a day (the week of its Thursday), as computed
by `Timestamp.isocalendar()`. -/
def isoYearWeek (z : Int) : Int × Int :=
  let th := z - (weekdayOfDay z : Int) + 3
  let y := yearOfDay th
  (y, (th - daysFromCivil y 1 1).fdiv 7 + 1)

def monthAbbr : Nat → String
  | 1 => "Jan" | 2 => "Feb" | 3 => "Mar" | 4 => "Apr" | 5 => "May" | 6 => "Jun"
  | 7 => "Jul" | 8 => "Aug" | 9 => "Sep" | 10 => "Oct" | 11 => "Nov" | _ => "Dec"

def dayNameOf : Nat → String
  | 0 => "Monday" | 1 => "Tuesday" | 2 => "Wednesday" | 3 => "Thursday"
  | 4 => "Friday" | 5 => "Saturday" | _ => "Sunday"

def pad2 (n : Nat) : String := if n < 10 then "0" ++ toString n else toString n

/-- Format a day number as `strftime('%b %d')`. -/
def fmtMonthDay (z : Int) : String :=
  monthAbbr (civilFromDays z).2.1 ++ " " ++ pad2 (civilFromDays z).2.2

/-- Format a day number as `strftime('%b %d, %Y')`. -/
def fmtDateLong (z : Int) : String := fmtMonthDay z ++ ", " ++ toString (yearOfDay z)

/-! ### Timestamps -/

/-- A `datetime` value: seconds since 1970-01-01 00:00. -/
def mkTs (y : Int) (m d h mi s : Nat) : Int :=
  daysFromCivil y m d * 86400 + ((h * 3600 + mi * 60 + s : Nat) : Int)

def dateOf (ts : Int) : Int := ts.fdiv 86400

def secOfDay (ts : Int) : Nat := (ts.fmod 86400).toNat

/-- Format a timestamp as `strftime('%I:%M %p')`. -/
def fmtClock (ts : Int) : String :=
  let sec := secOfDay ts
  let h := sec / 3600
  let h12 := (h + 11) % 12 + 1
  pad2 h12 ++ ":" ++ pad2 (sec % 3600 / 60) ++ (if h < 12 then " AM" else " PM")

/-! ### The structural line pattern (`app.py` line 15)

`^\[(\d{1,2}/\d{1,2}/\d{2,4}), (\d{1,2}:\d{2}(?::\d{2})?\s?[APMapm]{2})\] (.*?): (.*)`

Each `\d{lo,hi}` is followed by a non-digit literal, so it deterministically
consumes the maximal digit run (which must have length in `[lo, hi]`), and
the optional groups of the time are likewise forced. -/

/-- Maximal leading digit run and the rest. -/
def digitRun : Chars → Chars × Chars
  | [] => ([], [])
  | c :: t =>
    if isDigitCh c then
      let (r, rest) := digitRun t
      (c :: r, rest)
    else ([], c :: t)

/-- Match `\d{lo,hi}` followed by a non-digit: the maximal run, length-checked. -/
def digitsBetween (lo hi : Nat) (l : Chars) : Option (Chars × Chars) :=
  let (r, rest) := digitRun l
  if lo ≤ r.length ∧ r.length ≤ hi then some (r, rest) else none

def expectCh (c : Char) : Chars → Option Chars
  | [] => none
  | b :: t => if b = c then some t else none

def isAmPmCh (c : Char) : Bool :=
  c = 'A' || c = 'P' || c = 'M' || c = 'a' || c = 'p' || c = 'm'

/-- The time group `\d{1,2}:\d{2}(?::\d{2})?\s?[APMapm]{2}`, returning the
captured characters and the rest of the line. -/
def matchTimeGroup (l : Chars) : Option (Chars × Chars) := do
  let (hh, r) ← digitsBetween 1 2 l
  let r ← expectCh ':' r
  let (mm, r) ← digitsBetween 2 2 r
  let (secPart, r) :=
    match r with
    | ':' :: a :: b :: r2 =>
      if isDigitCh a && isDigitCh b && (match r2 with | c :: _ => !isDigitCh c | [] => true)
      then ([':', a, b], r2) else ([], r)
    | _ => ([], r)
  let (spPart, r) :=
    match r with
    | c :: r2 => if isSpaceCh c then ([c], r2) else ([], r)
    | [] => ([], r)
  match r with
  | c1 :: c2 :: r2 =>
    if isAmPmCh c1 ∧ isAmPmCh c2 then
      some (hh ++ ':' :: mm ++ secPart ++ spPart ++ [c1, c2], r2)
    else none
  | _ => none

/-- The lazy `(.*?): (.*)` tail: split at the first occurrence of `": "`. -/
def splitNameMsg : Chars → Option (Chars × Chars)
  | [] => none
  | c :: t =>
    if c = ':' && (match t with | ' ' :: _ => true | _ => false) then
      some ([], t.drop 1)
    else
      match splitNameMsg t with
      | some (nm, msg) => some (c :: nm, msg)
      | none => none

/-- Match the line pattern as `re.match` does: `some (dateStr, timeStr, name, message)`
on success. -/
def matchCustomPattern (l : Chars) : Option (Chars × Chars × Chars × Chars) := do
  let r ← expectCh '[' l
  let (d1, r) ← digitsBetween 1 2 r
  let r ← expectCh '/' r
  let (d2, r) ← digitsBetween 1 2 r
  let r ← expectCh '/' r
  let (d3, r) ← digitsBetween 2 4 r
  let r ← expectCh ',' r
  let r ← expectCh ' ' r
  let (timeS, r) ← matchTimeGroup r
  let r ← expectCh ']' r
  let r ← expectCh ' ' r
  let (nm, msg) ← splitNameMsg r
  some (d1 ++ '/' :: d2 ++ '/' :: d3, timeS, nm, msg)

/-! ### `datetime.strptime` for the two formats of `parse_custom_format` -/

/-- Directive `%m` / `%I` : `1[0-2]|0[1-9]|[1-9]`. -/
def pOneToTwelve : Chars → Option (Nat × Chars)
  | '1' :: c :: r =>
    if '0' ≤ c ∧ c ≤ '2' then some (10 + digitVal c, r)
    else some (1, c :: r)
  | '0' :: c :: r =>
    if '1' ≤ c ∧ c ≤ '9' then some (digitVal c, r) else none
  | c :: r => if '1' ≤ c ∧ c ≤ '9' then some (digitVal c, r) else none
  | [] => none

/-- Directive `%d` : `3[01]|[12]\d|0[1-9]|[1-9]`. -/
def pDayNum : Chars → Option (Nat × Chars)
  | '3' :: c :: r =>
    if c = '0' ∨ c = '1' then some (30 + digitVal c, r)
    else some (3, c :: r)
  | '0' :: c :: r =>
    if '1' ≤ c ∧ c ≤ '9' then some (digitVal c, r) else none
  | c1 :: c2 :: r =>
    if (c1 = '1' ∨ c1 = '2') ∧ isDigitCh c2 then some (digitVal c1 * 10 + digitVal c2, r)
    else if '1' ≤ c1 ∧ c1 ≤ '9' then some (digitVal c1, c2 :: r)
    else none
  | [c] => if '1' ≤ c ∧ c ≤ '9' then some (digitVal c, []) else none
  | [] => none

/-- Directive `%y` : `\d\d`. -/
def pYear2 : Chars → Option (Nat × Chars)
  | c1 :: c2 :: r =>
    if isDigitCh c1 ∧ isDigitCh c2 then some (digitVal c1 * 10 + digitVal c2, r) else none
  | _ => none

/-- Directive `%M` : `[0-5]\d|\d`. -/
def pMinute : Chars → Option (Nat × Chars)
  | c1 :: c2 :: r =>
    if '0' ≤ c1 ∧ c1 ≤ '5' ∧ isDigitCh c2 then some (digitVal c1 * 10 + digitVal c2, r)
    else if isDigitCh c1 then some (digitVal c1, c2 :: r)
    else none
  | [c] => if isDigitCh c then some (digitVal c, []) else none
  | [] => none

/-- Directive `%S` : `6[0-1]|[0-5]\d|\d`. -/
def pSecond : Chars → Option (Nat × Chars)
  | '6' :: c :: r =>
    if c = '0' ∨ c = '1' then some (60 + digitVal c, r)
    else some (6, c :: r)
  | c1 :: c2 :: r =>
    if '0' ≤ c1 ∧ c1 ≤ '5' ∧ isDigitCh c2 then some (digitVal c1 * 10 + digitVal c2, r)
    else if isDigitCh c1 then some (digitVal c1, c2 :: r)
    else none
  | [c] => if isDigitCh c then some (digitVal c, []) else none
  | [] => none

/-- A literal space in a `strptime` format: `\s+`. -/
def pSpaces : Chars → Option Chars
  | c :: t => if isSpaceCh c then some (t.dropWhile isSpaceCh) else none
  | [] => none

/-- Directive `%p` : `am` or `pm`, case-insensitively; returns `true` for PM. -/
def pAmPm : Chars → Option (Bool × Chars)
  | c1 :: c2 :: r =>
    if (c1 = 'a' ∨ c1 = 'A') ∧ (c2 = 'm' ∨ c2 = 'M') then some (false, r)
    else if (c1 = 'p' ∨ c1 = 'P') ∧ (c2 = 'm' ∨ c2 = 'M') then some (true, r)
    else none
  | _ => none

/-- Apply the `%y` year mapping and the `%I`/`%p` hour mapping of `_strptime`,
plus the `datetime` constructor's validation of the day and second. -/
def assembleTs (yy mo dy h12 mi s : Nat) (pm : Bool) : Option Int :=
  let year : Int := if yy ≤ 68 then 2000 + (yy : Int) else 1900 + (yy : Int)
  if dy ≤ daysInMonth year mo ∧ s ≤ 59 then
    let h24 := if pm then (if h12 = 12 then 12 else h12 + 12)
               else (if h12 = 12 then 0 else h12)
    some (mkTs year mo dy h24 mi s)
  else none

/-- Model of the call of `strptime` with format "%m/%d/%y %I:%M %p". -/
def strptimeNoSec (l : Chars) : Option Int := do
  let (mo, r) ← pOneToTwelve l
  let r ← expectCh '/' r
  let (dy, r) ← pDayNum r
  let r ← expectCh '/' r
  let (yy, r) ← pYear2 r
  let r ← pSpaces r
  let (h12, r) ← pOneToTwelve r
  let r ← expectCh ':' r
  let (mi, r) ← pMinute r
  let r ← pSpaces r
  let (pm, r) ← pAmPm r
  if r = [] then assembleTs yy mo dy h12 mi 0 pm else none

/-- Model of the call of `strptime` with format "%m/%d/%y %I:%M:%S %p". -/
def strptimeWithSec (l : Chars) : Option Int := do
  let (mo, r) ← pOneToTwelve l
  let r ← expectCh '/' r
  let (dy, r) ← pDayNum r
  let r ← expectCh '/' r
  let (yy, r) ← pYear2 r
  let r ← pSpaces r
  let (h12, r) ← pOneToTwelve r
  let r ← expectCh ':' r
  let (mi, r) ← pMinute r
  let r ← expectCh ':' r
  let (s, r) ← pSecond r
  let r ← pSpaces r
  let (pm, r) ← pAmPm r
  if r = [] then assembleTs yy mo dy h12 mi s pm else none

/-! ### The Line Parser (`parse_custom_format`, lines 14–34) -/

structure Event where
  name : String
  timestamp : Int
  message : String
  deriving DecidableEq, Repr

/-- The nested `try`/`except` of lines 22–26: the no-seconds format first,
then the with-seconds format. -/
def parseTimestamp (l : Chars) : Option Int :=
  match strptimeNoSec l with
  | some ts => some ts
  | none => strptimeWithSec l

/-- One loop iteration of `parse_custom_format`: `some` record or a
silent skip. -/
def parseLine (l : Chars) : Option Event :=
  match matchCustomPattern l with
  | none => none
  | some (dateS, timeS, nm, msg) =>
    match parseTimestamp (dateS ++ ' ' :: stripChars timeS) with
    | none => none
    | some ts =>
      some { name := (stripChars nm).asString
             timestamp := ts
             message := (lowerChars (stripChars msg)).asString }

/-- Split at newline characters (the model of `splitlines` for the
line-feed-separated exports this code consumes). -/
def splitLinesAux : Chars → Chars → List Chars
  | [], acc => [acc.reverse]
  | '\n' :: t, acc => acc.reverse :: splitLinesAux t []
  | c :: t, acc => splitLinesAux t (c :: acc)

/-- Model of `parse_custom_format(file_text)`: every line is attempted; failures
are dropped silently. -/
def parse_custom_format (fileText : String) : List Event :=
  (splitLinesAux fileText.data []).filterMap parseLine

/-! ### Stable sorting and first-occurrence deduplication

The model of `sort_values` (stable; `pandas`' default quicksort is only
unspecified on ties between equal keys) and of `drop_duplicates`. -/

def insertSorted (le : α → α → Bool) (x : α) : List α → List α
  | [] => [x]
  | y :: t => if le x y then x :: y :: t else y :: insertSorted le x t

def insertionSort (le : α → α → Bool) : List α → List α
  | [] => []
  | x :: t => insertSorted le x (insertionSort le t)

def dedupFirstAux [DecidableEq α] (seen : List α) : List α → List α
  | [] => []
  | a :: t => if a ∈ seen then dedupFirstAux seen t else a :: dedupFirstAux (a :: seen) t

/-- Keep the first occurrence of each element (`drop_duplicates`). -/
def dedupFirst [DecidableEq α] (l : List α) : List α := dedupFirstAux [] l

/-! ### Keyword Classifier

Line 42 filters by the regex `\bin\b|\bout\b|\blunch\b|\bback\b|\breturn\b`
(whole-word, via `str.contains` = `re.search`); line 60 classifies by plain
substring membership (`any(x in msg1 for x in [...])`). -/

def keywordList : List String := ["in", "out", "lunch", "back", "return"]

/-- Line 42: the message survives the keyword filter. -/
def keepMessage (msg : String) : Bool :=
  keywordList.any (fun kw => hasWholeWord kw.data msg.data)

def inKeywords : List String := ["in", "back", "return"]

def outKeywords : List String := ["out", "lunch"]

/-- Line 60, first conjunct: `any(x in msg1 for x in ['in', 'back', 'return'])`. -/
def isInMsg (msg : String) : Bool :=
  inKeywords.any (fun kw => hasSubstr kw.data msg.data)

/-- Line 60, second conjunct: `any(x in msg2 for x in ['out', 'lunch'])`. -/
def isOutMsg (msg : String) : Bool :=
  outKeywords.any (fun kw => hasSubstr kw.data msg.data)

/-! ### Week Windower (lines 43–48) -/

def filteredEvents (df : List Event) : List Event :=
  df.filter (fun e => keepMessage e.message)

/-- Columns `year`, `week` of an event (lines 44–45). -/
def eventWeek (e : Event) : Int × Int := isoYearWeek (dateOf e.timestamp)

/-- Descending lexicographic comparison used by
`sort_values(['year', 'week'], ascending=False)`. -/
def pairDescB (a b : Int × Int) : Bool :=
  if b.1 < a.1 then true else if b.1 = a.1 then b.2 ≤ a.2 else false

/-- Line 47: distinct `(year, week)` pairs, newest first, first four kept. -/
def latest_weeks (pairs : List (Int × Int)) : List (Int × Int) :=
  (insertionSort pairDescB (dedupFirst pairs)).take 4

/-- Line 48: the merge keeps exactly the rows whose `(year, week)` is in
`latest_weeks`, in frame order. -/
def windowedEvents (df : List Event) : List Event :=
  (filteredEvents df).filter
    (fun e => (latest_weeks ((filteredEvents df).map eventWeek)).contains (eventWeek e))

/-! ### Interval Pairer (lines 52–76) -/

/-- The while loop of lines 56–76 on a chronologically sorted group:
an IN-like message directly followed by an OUT-like message emits one
interval and consumes both events; otherwise the head is dropped. -/
def pairScan : List Event → List (Event × Event)
  | e1 :: e2 :: rest =>
    if isInMsg e1.message && isOutMsg e2.message then
      (e1, e2) :: pairScan rest
    else
      pairScan (e2 :: rest)
  | _ => []

/-- Grouping key of `groupby(['name', 'date'])`. -/
def eventKey (e : Event) : String × Int := (e.name, dateOf e.timestamp)

/-- Lexicographic code-point comparison of strings (Python's `str <`). -/
def strLtB : Chars → Chars → Bool
  | [], [] => false
  | [], _ :: _ => true
  | _ :: _, [] => false
  | a :: s, b :: t => if a < b then true else if a = b then strLtB s t else false

def keyLeB (a b : String × Int) : Bool :=
  if strLtB a.1.data b.1.data then true else if a.1 = b.1 then a.2 ≤ b.2 else false

/-- Distinct `(name, date)` keys in the sorted order `groupby` iterates. -/
def groupKeys (evs : List Event) : List (String × Int) :=
  insertionSort keyLeB (dedupFirst (evs.map eventKey))

def tsLeB (a b : Event) : Bool := a.timestamp ≤ b.timestamp

/-- The rows of one `(name, date)` group, sorted by timestamp (line 53). -/
def groupFor (evs : List Event) (k : String × Int) : List Event :=
  insertionSort tsLeB (evs.filter (fun e => eventKey e == k))

/-- Rounding of line 72: `round(x, 2)` (see the header note on float ties). -/
def round2 (q : ℚ) : ℚ := (⌊q * 100 + 1 / 2⌋ : ℚ) / 100

/-- Model of `get_week_range` (lines 36–39): Monday and Sunday of the week
of the timestamp (as datetimes), and the label
`"<Mon %b %d> - <Sun %b %d> <Sun year>"`.  The label only reads the date
parts of the two datetimes, so it is computed from day numbers. -/
def get_week_range (ts : Int) : Int × Int × String :=
  let d := dateOf ts
  let monday := d - (weekdayOfDay d : Int)
  let sunday := monday + 6
  (ts - 86400 * (weekdayOfDay d : Int),
   ts - 86400 * (weekdayOfDay d : Int) + 6 * 86400,
   fmtMonthDay monday ++ " - " ++ fmtMonthDay sunday ++ " " ++ toString (yearOfDay sunday))

/-- A row of the Daily Work Log (lines 65–73).  The `Date` column holds the
group's calendar day; the frame displays it as `fmtDateLong Date`, and
`get_last_week_data` re-parses that string back to the same day. -/
structure DailyRecord where
  Name : String
  Date : Int
  Day : String
  Week : String
  ClockIn : String
  ClockOut : String
  HoursWorked : ℚ
  deriving DecidableEq, Repr

def mkDailyRecord (k : String × Int) (p : Event × Event) : DailyRecord :=
  { Name := k.1
    Date := k.2
    Day := dayNameOf (weekdayOfDay (dateOf p.1.timestamp))
    Week := (get_week_range p.1.timestamp).2.2
    ClockIn := fmtClock p.1.timestamp
    ClockOut := fmtClock p.2.timestamp
    HoursWorked := round2 (((p.2.timestamp - p.1.timestamp : Int) : ℚ) / 3600) }

/-- All intervals emitted by the grouped scan, with their group keys. -/
def dailyPairs (df : List Event) : List ((String × Int) × Event × Event) :=
  (groupKeys (windowedEvents df)).flatMap
    (fun k => (pairScan (groupFor (windowedEvents df) k)).map (fun p => (k, p)))

/-- The Daily Work Log frame built by `calculate_hours`. -/
def dailyRecords (df : List Event) : List DailyRecord :=
  (dailyPairs df).map (fun kp => mkDailyRecord kp.1 kp.2)

/-! ### Aggregator: Weekly Summary (lines 80–87) -/

def sumHours (l : List DailyRecord) : ℚ := (l.map (fun r => r.HoursWorked)).sum

def sumKeyLeB (a b : String × String) : Bool :=
  if strLtB a.1.data b.1.data then true
  else if a.1 = b.1 then strLtB a.2.data b.2.data || a.2 = b.2
  else false

/-- `groupby(['Name', 'Week'])['Hours Worked'].sum()`: one row per distinct
`(Name, Week)` pair, carrying the sum of that group's hours. -/
def weekly_summary (daily : List DailyRecord) : List (String × String × ℚ) :=
  (insertionSort sumKeyLeB (dedupFirst (daily.map (fun r => (r.Name, r.Week))))).map
    (fun k => (k.1, k.2, sumHours (daily.filter (fun r => r.Name == k.1 && r.Week == k.2))))

/-- Model of `calculate_hours`: the Daily Work Log and the Weekly Summary. -/
def calculate_hours (df : List Event) : List DailyRecord × List (String × String × ℚ) :=
  (dailyRecords df, weekly_summary (dailyRecords df))

/-! ### Aggregator: Last-Week Timesheet (`get_last_week_data`, lines 91–130) -/

/-- A row of the timesheet: the Daily Work Log columns minus the helper
columns dropped at line 128, plus `Total Hours This Week`, which is a float
on one row per person and the empty string on the others (modelled as
`Option ℚ`). -/
structure TimesheetRow where
  Name : String
  Date : Int
  Day : String
  ClockIn : String
  ClockOut : String
  HoursWorked : ℚ
  TotalHoursThisWeek : Option ℚ
  deriving DecidableEq, Repr

/-- Lines 100–108: the `(Year, Week)` groups whose pooled set of weekdays
(over all rows of the group, regardless of person) covers Monday–Sunday. -/
def complete_weeks (daily : List DailyRecord) : List (Int × Int) :=
  (dedupFirst (daily.map (fun r => isoYearWeek r.Date))).filter
    (fun k => (List.range 7).all
      (fun w => daily.any (fun r => isoYearWeek r.Date == k && weekdayOfDay r.Date == w)))

/-- Line 113: `sort_values(['Year', 'Week'], ascending=False).iloc[0]`,
i.e. the lexicographic maximum. -/
def pairMax (l : List (Int × Int)) : Option (Int × Int) :=
  l.foldl
    (fun acc k =>
      match acc with
      | none => some k
      | some m => if m.1 < k.1 ∨ (m.1 = k.1 ∧ m.2 < k.2) then some k else some m)
    none

def personTotal (win : List DailyRecord) (nm : String) : ℚ :=
  sumHours (win.filter (fun r => r.Name == nm))

/-- Conversion of a Daily Work Log row into a timesheet row with a given
total column. -/
def mkTimesheetRow (r : DailyRecord) (tot : Option ℚ) : TimesheetRow :=
  { Name := r.Name, Date := r.Date, Day := r.Day, ClockIn := r.ClockIn,
    ClockOut := r.ClockOut, HoursWorked := r.HoursWorked, TotalHoursThisWeek := tot }

/-- Lines 122–127: the per-person total is attached to every row by the
merge, and the `transform` keeps it on the first row of each person
(frame order) and blanks the rest. -/
def attachTotals (win : List DailyRecord) : List DailyRecord → List String → List TimesheetRow
  | [], _ => []
  | r :: rest, seen =>
    mkTimesheetRow r
        (if seen.contains r.Name then none else some (personTotal win r.Name)) ::
      attachTotals win rest (r.Name :: seen)

/-- Lines 115–117: the Daily Work Log rows of the selected week. -/
def lastWeekWindow (daily : List DailyRecord) (k : Int × Int) : List DailyRecord :=
  daily.filter (fun r => isoYearWeek r.Date == k)

/-- Model of `get_last_week_data`: `none` models the `(empty, None, None)`
return.  `min?.getD 0` is only a formality: the selected week is complete,
so the window is nonempty and holds its own Monday. -/
def get_last_week_data (daily : List DailyRecord) :
    Option (List TimesheetRow × Int × Int) :=
  if daily.isEmpty then none
  else
    match pairMax (complete_weeks daily) with
    | none => none
    | some k =>
      some (attachTotals (lastWeekWindow daily k) (lastWeekWindow daily k) [],
            (((lastWeekWindow daily k).map (fun r => r.Date)).min?).getD 0,
            (((lastWeekWindow daily k).map (fun r => r.Date)).min?).getD 0 + 6)

/-! ### Auxiliary ordering and spec-side definitions used in the statements -/

/-- Strict lexicographic order: `b` is a more recent `(year, week)` than `a`. -/
def pairLt (a b : Int × Int) : Prop := a.1 < b.1 ∨ (a.1 = b.1 ∧ a.2 < b.2)

/-- Reflexive lexicographic order on `(year, week)` pairs. -/
def pairLe (a b : Int × Int) : Prop := a.1 < b.1 ∨ (a.1 = b.1 ∧ a.2 ≤ b.2)

instance (a b : Int × Int) : Decidable (pairLt a b) := by unfold pairLt; infer_instance

instance (a b : Int × Int) : Decidable (pairLe a b) := by unfold pairLe; infer_instance

/-- The spec-side notion: the keyword occurs somewhere in the message as a
whole word (non-word characters, or the string edges, on both sides). -/
def OccursWholeWord (kw s : Chars) : Prop :=
  ∃ pre post, s = pre ++ kw ++ post ∧
    (∀ c, pre.getLast? = some c → isWordCh c = false) ∧
    (∀ c, post.head? = some c → isWordCh c = false)

/-! ## Concrete fixtures used by the claim theorems -/

/-- A one-person group whose sorted messages are `in`, `in`, `out`. -/
def gInInOut : List Event :=
  [⟨"a", mkTs 2025 1 6 9 0 0, "in"⟩,
   ⟨"a", mkTs 2025 1 6 10 0 0, "in"⟩,
   ⟨"a", mkTs 2025 1 6 17 0 0, "out"⟩]

/-- Two events of one person at the very same timestamp. -/
def gEq : List Event :=
  [⟨"a", mkTs 2025 1 6 9 0 0, "in"⟩, ⟨"a", mkTs 2025 1 6 9 0 0, "out"⟩]

/-- A structurally valid line with a 4-digit year. -/
def line4y : String := "[01/06/2025, 09:00:00 AM] Alice: in"

/-- The end-to-end scenario of the spec (§8). -/
def demo : String :=
  "[01/06/25, 09:00:00 AM] Alice: in\n[01/06/25, 05:00:00 PM] Alice: out\n" ++
  "[01/07/25, 09:15:00 AM] Alice: back\n[01/07/25, 05:00:00 PM] Alice: lunch"

/-- A Daily Work Log row with the given name and date (display columns
irrelevant to the aggregators). -/
def recOf (nm : String) (y : Int) (m d : Nat) : DailyRecord :=
  { Name := nm, Date := daysFromCivil y m d, Day := "", Week := "",
    ClockIn := "", ClockOut := "", HoursWorked := 1 }

/-- Seven different people, one per weekday of ISO week (2025, 2)
(January 6–12, 2025): only their pooled records cover Monday–Sunday. -/
def recs7 : List DailyRecord :=
  [recOf "a" 2025 1 6, recOf "b" 2025 1 7, recOf "c" 2025 1 8, recOf "d" 2025 1 9,
   recOf "e" 2025 1 10, recOf "f" 2025 1 11, recOf "g" 2025 1 12]

/-- The timesheet rows the code produces for `recs7`. -/
def lwRows7 : List TimesheetRow :=
  [mkTimesheetRow (recOf "a" 2025 1 6) (some 1), mkTimesheetRow (recOf "b" 2025 1 7) (some 1),
   mkTimesheetRow (recOf "c" 2025 1 8) (some 1), mkTimesheetRow (recOf "d" 2025 1 9) (some 1),
   mkTimesheetRow (recOf "e" 2025 1 10) (some 1), mkTimesheetRow (recOf "f" 2025 1 11) (some 1),
   mkTimesheetRow (recOf "g" 2025 1 12) (some 1)]

/-- One in/out pair in week `(2025, 2 + d0)`, for `d0 ∈ [0, 5]`. -/
def wkEv (d0 : Nat) : List Event :=
  [⟨"a", mkTs 2025 1 6 9 0 0 + 86400 * 7 * d0, "in"⟩,
   ⟨"a", mkTs 2025 1 6 17 0 0 + 86400 * 7 * d0, "out"⟩]

/-- Events spanning 6 distinct ISO weeks, (2025, 2) … (2025, 7). -/
def ev6 : List Event := wkEv 0 ++ wkEv 1 ++ wkEv 2 ++ wkEv 3 ++ wkEv 4 ++ wkEv 5

/-! ## Lemmas about the generic list operations -/

theorem mem_insertSorted (le : α → α → Bool) (x a : α) :
    ∀ l, a ∈ insertSorted le x l ↔ a = x ∨ a ∈ l := by
  intro l
  induction l with
  | nil => simp [insertSorted]
  | cons y t ih =>
    simp only [insertSorted]
    split
    · simp [List.mem_cons]
    · simp only [List.mem_cons, ih]
      tauto

theorem insertSorted_perm (le : α → α → Bool) (x : α) :
    ∀ l, (insertSorted le x l).Perm (x :: l) := by
  intro l
  induction l with
  | nil => simp [insertSorted]
  | cons y t ih =>
    simp only [insertSorted]
    split
    · exact List.Perm.refl _
    · exact (List.Perm.cons y ih).trans (List.Perm.swap x y t)

theorem insertionSort_perm (le : α → α → Bool) :
    ∀ l, (insertionSort le l).Perm l := by
  intro l
  induction l with
  | nil => simp [insertionSort]
  | cons x t ih =>
    exact (insertSorted_perm le x (insertionSort le t)).trans (List.Perm.cons x ih)

theorem mem_insertionSort (le : α → α → Bool) (a : α) (l : List α) :
    a ∈ insertionSort le l ↔ a ∈ l :=
  (insertionSort_perm le l).mem_iff

theorem pairwise_insertSorted (le : α → α → Bool)
    (htot : ∀ a b, le a b = true ∨ le b a = true)
    (htr : ∀ a b c, le a b = true → le b c = true → le a c = true) (x : α) :
    ∀ l, l.Pairwise (fun a b => le a b = true) →
      (insertSorted le x l).Pairwise (fun a b => le a b = true) := by
  intro l
  induction l with
  | nil => simp [insertSorted]
  | cons y t ih =>
    intro h
    rw [List.pairwise_cons] at h
    simp only [insertSorted]
    split
    · rename_i hxy
      rw [List.pairwise_cons]
      refine ⟨?_, List.pairwise_cons.mpr h⟩
      intro b hb
      rcases List.mem_cons.mp hb with rfl | hb'
      · exact hxy
      · exact htr x y b hxy (h.1 b hb')
    · rename_i hxy
      have hyx : le y x = true := by
        rcases htot x y with h1 | h1
        · exact absurd h1 hxy
        · exact h1
      rw [List.pairwise_cons]
      refine ⟨?_, ih h.2⟩
      intro b hb
      rcases (mem_insertSorted le x b t).mp hb with rfl | hb'
      · exact hyx
      · exact h.1 b hb'

theorem pairwise_insertionSort (le : α → α → Bool)
    (htot : ∀ a b, le a b = true ∨ le b a = true)
    (htr : ∀ a b c, le a b = true → le b c = true → le a c = true) :
    ∀ l : List α, (insertionSort le l).Pairwise (fun a b => le a b = true) := by
  intro l
  induction l with
  | nil => simp [insertionSort]
  | cons x t ih => exact pairwise_insertSorted le htot htr x _ ih

theorem mem_dedupFirstAux [DecidableEq α] (a : α) :
    ∀ (l seen : List α), a ∈ dedupFirstAux seen l ↔ a ∈ l ∧ a ∉ seen := by
  intro l
  induction l with
  | nil => simp [dedupFirstAux]
  | cons b t ih =>
    intro seen
    simp only [dedupFirstAux]
    split
    · rename_i hb
      rw [ih seen]
      constructor
      · rintro ⟨ht, hs⟩; exact ⟨List.mem_cons_of_mem b ht, hs⟩
      · rintro ⟨hbt, hs⟩
        rcases List.mem_cons.mp hbt with rfl | ht
        · exact absurd hb hs
        · exact ⟨ht, hs⟩
    · rename_i hb
      constructor
      · intro h
        rcases List.mem_cons.mp h with rfl | h'
        · exact ⟨List.mem_cons_self a t, hb⟩
        · obtain ⟨ht, hs⟩ := (ih (b :: seen)).mp h'
          exact ⟨List.mem_cons_of_mem b ht, fun hc => hs (List.mem_cons_of_mem b hc)⟩
      · rintro ⟨hbt, hs⟩
        rcases List.mem_cons.mp hbt with rfl | ht
        · exact List.mem_cons_self a _
        · by_cases hab : a = b
          · subst hab; exact List.mem_cons_self a _
          · refine List.mem_cons_of_mem b ((ih (b :: seen)).mpr ⟨ht, ?_⟩)
            intro hc
            rcases List.mem_cons.mp hc with h1 | h1
            · exact hab h1
            · exact hs h1

theorem mem_dedupFirst [DecidableEq α] (a : α) (l : List α) :
    a ∈ dedupFirst l ↔ a ∈ l := by
  rw [dedupFirst, mem_dedupFirstAux]
  simp

theorem nodup_dedupFirstAux [DecidableEq α] :
    ∀ (l seen : List α), (dedupFirstAux seen l).Nodup := by
  intro l
  induction l with
  | nil => intro seen; simp [dedupFirstAux]
  | cons b t ih =>
    intro seen
    simp only [dedupFirstAux]
    split
    · exact ih seen
    · refine List.nodup_cons.mpr ⟨?_, ih (b :: seen)⟩
      intro hc
      exact ((mem_dedupFirstAux b t (b :: seen)).mp hc).2 (List.mem_cons_self b seen)

theorem nodup_dedupFirst [DecidableEq α] (l : List α) : (dedupFirst l).Nodup :=
  nodup_dedupFirstAux l []

/-! ## Lemmas about the lexicographic order on `(year, week)` pairs -/

theorem pairDescB_iff (a b : Int × Int) : pairDescB a b = true ↔ pairLe b a := by
  rcases a with ⟨a1, a2⟩
  rcases b with ⟨b1, b2⟩
  simp only [pairDescB, pairLe]
  split_ifs <;> simp_all

theorem pairDescB_iff_not_pairLt (a b : Int × Int) :
    pairDescB a b = true ↔ ¬ pairLt a b := by
  rw [pairDescB_iff]
  rcases a with ⟨a1, a2⟩
  rcases b with ⟨b1, b2⟩
  simp only [pairLe, pairLt]
  omega

theorem pairLt_of_not_self (a x : Int × Int) (hle : pairDescB a x = true) (hne : x ≠ a) :
    pairLt x a := by
  rw [pairDescB_iff] at hle
  rcases a with ⟨a1, a2⟩
  rcases x with ⟨x1, x2⟩
  have hne' : ¬ (x1 = a1 ∧ x2 = a2) := by
    intro hc
    exact hne (by simp [hc.1, hc.2])
  simp only [pairLe] at hle
  simp only [pairLt]
  omega

theorem pairDescB_total (a b : Int × Int) :
    pairDescB a b = true ∨ pairDescB b a = true := by
  rw [pairDescB_iff, pairDescB_iff]
  rcases a with ⟨a1, a2⟩
  rcases b with ⟨b1, b2⟩
  simp only [pairLe]
  omega

theorem pairDescB_trans (a b c : Int × Int)
    (h1 : pairDescB a b = true) (h2 : pairDescB b c = true) : pairDescB a c = true := by
  rw [pairDescB_iff] at h1 h2 ⊢
  rcases a with ⟨a1, a2⟩
  rcases b with ⟨b1, b2⟩
  rcases c with ⟨c1, c2⟩
  simp only [pairLe] at h1 h2 ⊢
  omega

/-- Membership in a descending-sorted duplicate-free prefix of length `k` is
exactly having fewer than `k` elements of the list above you. -/
theorem mem_take_iff_rank :
    ∀ (l : List (Int × Int)), l.Nodup →
      l.Pairwise (fun a b => pairDescB a b = true) →
      ∀ (k : Nat) (x : Int × Int),
        x ∈ l.take k ↔ x ∈ l ∧ l.countP (fun q => decide (pairLt x q)) < k := by
  intro l
  induction l with
  | nil => intro _ _ k x; simp
  | cons a t ih =>
    intro hnd hs k x
    have hnd' : t.Nodup := (List.nodup_cons.mp hnd).2
    have hat : a ∉ t := (List.nodup_cons.mp hnd).1
    rw [List.pairwise_cons] at hs
    cases k with
    | zero => simp
    | succ k =>
      by_cases hx : x = a
      · subst hx
        have hc : (x :: t).countP (fun q => decide (pairLt x q)) = 0 := by
          rw [List.countP_eq_zero]
          intro q hq
          rcases List.mem_cons.mp hq with rfl | hq'
          · simp only [decide_eq_true_eq]
            rcases q with ⟨q1, q2⟩
            simp only [pairLt]
            omega
          · simp only [decide_eq_true_eq]
            exact (pairDescB_iff_not_pairLt x q).mp (hs.1 q hq')
        rw [List.take_succ_cons, hc]
        constructor
        · intro _
          exact ⟨List.mem_cons_self x t, Nat.succ_pos k⟩
        · intro _
          exact List.mem_cons_self x (List.take k t)
      · by_cases hxt : x ∈ t
        · have hlt : pairLt x a := pairLt_of_not_self a x (hs.1 x hxt) hx
          have hc : (a :: t).countP (fun q => decide (pairLt x q)) =
              t.countP (fun q => decide (pairLt x q)) + 1 := by
            rw [List.countP_cons]
            simp [hlt]
          rw [List.take_succ_cons, hc, List.mem_cons, List.mem_cons]
          constructor
          · rintro (rfl | h)
            · exact absurd rfl hx
            · have := (ih hnd' hs.2 k x).mp h
              exact ⟨Or.inr this.1, by omega⟩
          · rintro ⟨_, hcnt⟩
            refine Or.inr ((ih hnd' hs.2 k x).mpr ⟨hxt, by omega⟩)
        · constructor
          · intro h
            rcases List.mem_cons.mp (List.take_subset (k + 1) (a :: t) h) with rfl | h'
            · exact absurd rfl hx
            · exact absurd h' hxt
          · rintro ⟨hmem, _⟩
            rcases List.mem_cons.mp hmem with rfl | h'
            · exact absurd rfl hx
            · exact absurd h' hxt

/-! ## Lemmas about `pairMax` (the lexicographic maximum of line 113) -/

theorem pairLe_refl (a : Int × Int) : pairLe a a := Or.inr ⟨rfl, le_refl _⟩

theorem pairLe_trans {a b c : Int × Int} (h1 : pairLe a b) (h2 : pairLe b c) : pairLe a c := by
  rcases h1 with h1 | ⟨h1, h1'⟩ <;> rcases h2 with h2 | ⟨h2, h2'⟩ <;>
    first | (left; omega) | (right; exact ⟨by omega, by omega⟩)

theorem pairMax_go (l : List (Int × Int)) :
    ∀ m : Int × Int,
      ∃ r, l.foldl
          (fun acc k =>
            match acc with
            | none => some k
            | some m => if m.1 < k.1 ∨ (m.1 = k.1 ∧ m.2 < k.2) then some k else some m)
          (some m) = some r ∧
        (r = m ∨ r ∈ l) ∧ pairLe m r ∧ ∀ j ∈ l, pairLe j r := by
  induction l with
  | nil =>
    intro m
    exact ⟨m, rfl, Or.inl rfl, pairLe_refl m, by simp⟩
  | cons k t ih =>
    intro m
    by_cases hmk : m.1 < k.1 ∨ (m.1 = k.1 ∧ m.2 < k.2)
    · obtain ⟨r, hr, hmem, hle, hall⟩ := ih k
      refine ⟨r, ?_, ?_, ?_, ?_⟩
      · simpa [List.foldl_cons, hmk] using hr
      · rcases hmem with rfl | h
        · exact Or.inr (List.mem_cons_self _ _)
        · exact Or.inr (List.mem_cons_of_mem _ h)
      · refine pairLe_trans ?_ hle
        rcases hmk with h | ⟨h, h'⟩
        · exact Or.inl h
        · exact Or.inr ⟨h, le_of_lt h'⟩
      · intro j hj
        rcases List.mem_cons.mp hj with rfl | hj'
        · exact hle
        · exact hall j hj'
    · obtain ⟨r, hr, hmem, hle, hall⟩ := ih m
      refine ⟨r, ?_, ?_, hle, ?_⟩
      · simpa [List.foldl_cons, hmk] using hr
      · rcases hmem with rfl | h
        · exact Or.inl rfl
        · exact Or.inr (List.mem_cons_of_mem _ h)
      · intro j hj
        rcases List.mem_cons.mp hj with rfl | hj'
        · refine pairLe_trans ?_ hle
          rcases j with ⟨j1, j2⟩
          rcases m with ⟨m1, m2⟩
          simp only [not_or, not_and, not_lt] at hmk
          rcases lt_trichotomy j1 m1 with h | h | h
          · exact Or.inl h
          · exact Or.inr ⟨h, by subst h; exact hmk.2 rfl⟩
          · exact absurd h (by omega)
        · exact hall j hj'

theorem pairMax_eq_none (l : List (Int × Int)) : pairMax l = none ↔ l = [] := by
  cases l with
  | nil => simp [pairMax]
  | cons a t =>
    simp only [pairMax, List.foldl_cons]
    obtain ⟨r, hr, _, _, _⟩ := pairMax_go t a
    simp only [hr]
    simp

theorem pairMax_spec (l : List (Int × Int)) (k : Int × Int) (h : pairMax l = some k) :
    k ∈ l ∧ ∀ j ∈ l, pairLe j k := by
  cases l with
  | nil => simp [pairMax] at h
  | cons a t =>
    simp only [pairMax, List.foldl_cons] at h
    obtain ⟨r, hr, hmem, hle, hall⟩ := pairMax_go t a
    rw [hr] at h
    cases h
    constructor
    · rcases hmem with rfl | hm
      · exact List.mem_cons_self _ _
      · exact List.mem_cons_of_mem _ hm
    · intro j hj
      rcases List.mem_cons.mp hj with rfl | hj'
      · exact hle
      · exact hall j hj'

theorem contains_iff_mem [BEq α] [LawfulBEq α] (l : List α) (a : α) :
    l.contains a = true ↔ a ∈ l := by
  simp

/-! ## Lemmas about the Interval Pairer -/

theorem pairScan_eq_cons (e1 e2 : Event) (rest : List Event)
    (h : (isInMsg e1.message && isOutMsg e2.message) = true) :
    pairScan (e1 :: e2 :: rest) = (e1, e2) :: pairScan rest := by
  rw [pairScan]
  simp [h]

theorem pairScan_eq_skip (e1 e2 : Event) (rest : List Event)
    (h : (isInMsg e1.message && isOutMsg e2.message) = false) :
    pairScan (e1 :: e2 :: rest) = pairScan (e2 :: rest) := by
  rw [pairScan]
  simp [h]

theorem pairScan_short (l : List Event) (h : l.length < 2) : pairScan l = [] := by
  match l, h with
  | [], _ =>
    rw [pairScan]
    intro e1 e2 rest h
    cases h
  | [e], _ =>
    rw [pairScan]
    intro e1 e2 rest h
    cases h
  | e1 :: e2 :: t, h => simp at h; omega

/-- No event is ever reused: the events of the emitted intervals, in order,
form a sublist of the group. -/
theorem pairScan_used_sublist :
    ∀ l : List Event, ((pairScan l).flatMap (fun p => [p.1, p.2])).Sublist l := by
  intro l
  induction l using pairScan.induct with
  | case1 e1 e2 rest h ih =>
    rw [pairScan_eq_cons e1 e2 rest h]
    simpa using List.Sublist.cons₂ e1 (List.Sublist.cons₂ e2 ih)
  | case2 e1 e2 rest h ih =>
    rw [pairScan_eq_skip e1 e2 rest (by simpa using h)]
    exact List.Sublist.cons e1 ih
  | case3 l hl =>
    rw [pairScan_short]
    · exact List.nil_sublist l
    · match l, hl with
      | [], _ => simp
      | [e], _ => simp
      | e1 :: e2 :: t, hl => exact absurd rfl (hl e1 e2 t)

theorem pairScan_pairs_mem :
    ∀ (l : List Event) (p : Event × Event), p ∈ pairScan l → p.1 ∈ l ∧ p.2 ∈ l := by
  intro l
  induction l using pairScan.induct with
  | case1 e1 e2 rest h ih =>
    intro p hp
    rw [pairScan_eq_cons e1 e2 rest h] at hp
    rcases List.mem_cons.mp hp with rfl | hp'
    · exact ⟨List.mem_cons_self _ _, List.mem_cons_of_mem _ (List.mem_cons_self _ _)⟩
    · obtain ⟨h1, h2⟩ := ih p hp'
      exact ⟨List.mem_cons_of_mem _ (List.mem_cons_of_mem _ h1),
             List.mem_cons_of_mem _ (List.mem_cons_of_mem _ h2)⟩
  | case2 e1 e2 rest h ih =>
    intro p hp
    rw [pairScan_eq_skip e1 e2 rest (by simpa using h)] at hp
    obtain ⟨h1, h2⟩ := ih p hp
    exact ⟨List.mem_cons_of_mem _ h1, List.mem_cons_of_mem _ h2⟩
  | case3 l hl =>
    intro p hp
    rw [pairScan_short] at hp
    · cases hp
    · match l, hl with
      | [], _ => simp
      | [e], _ => simp
      | e1 :: e2 :: t, hl => exact absurd rfl (hl e1 e2 t)

/-- On a chronologically sorted group every emitted interval is ordered. -/
theorem pairScan_pairs_le :
    ∀ l : List Event, l.Pairwise (fun a b => tsLeB a b = true) →
      ∀ p ∈ pairScan l, p.1.timestamp ≤ p.2.timestamp := by
  intro l
  induction l using pairScan.induct with
  | case1 e1 e2 rest h ih =>
    intro hs p hp
    rw [pairScan_eq_cons e1 e2 rest h] at hp
    rcases List.mem_cons.mp hp with rfl | hp'
    · have := (List.pairwise_cons.mp hs).1 e2 (List.mem_cons_self _ _)
      exact of_decide_eq_true this
    · exact ih hs.of_cons.of_cons p hp'
  | case2 e1 e2 rest h ih =>
    intro hs p hp
    rw [pairScan_eq_skip e1 e2 rest (by simpa using h)] at hp
    exact ih hs.of_cons p hp
  | case3 l hl =>
    intro hs p hp
    rw [pairScan_short] at hp
    · cases hp
    · match l, hl with
      | [], _ => simp
      | [e], _ => simp
      | e1 :: e2 :: t, hl => exact absurd rfl (hl e1 e2 t)

theorem flatMapPair_length (ps : List (Event × Event)) :
    (ps.flatMap (fun p => [p.1, p.2])).length = 2 * ps.length := by
  induction ps with
  | nil => rfl
  | cons p t ih =>
    simp only [List.flatMap_cons, List.length_append, List.length_cons, ih]
    simp
    omega

theorem pairScan_length_le (l : List Event) : (pairScan l).length ≤ l.length / 2 := by
  rw [Nat.le_div_iff_mul_le (by norm_num)]
  have h := (pairScan_used_sublist l).length_le
  rw [flatMapPair_length] at h
  omega

theorem tsLeB_total (a b : Event) : tsLeB a b = true ∨ tsLeB b a = true := by
  simp only [tsLeB, decide_eq_true_eq]
  omega

theorem tsLeB_trans (a b c : Event) (h1 : tsLeB a b = true) (h2 : tsLeB b c = true) :
    tsLeB a c = true := by
  simp only [tsLeB, decide_eq_true_eq] at h1 h2 ⊢
  omega

theorem groupFor_pairwise (evs : List Event) (k : String × Int) :
    (groupFor evs k).Pairwise (fun a b => tsLeB a b = true) :=
  pairwise_insertionSort tsLeB tsLeB_total tsLeB_trans _

theorem mem_groupFor (evs : List Event) (k : String × Int) (e : Event) :
    e ∈ groupFor evs k ↔ e ∈ evs ∧ eventKey e = k := by
  rw [groupFor, mem_insertionSort, List.mem_filter]
  simp

/-! ## Lemmas about `attachTotals` -/

theorem mkTimesheetRow_name (r : DailyRecord) (t : Option ℚ) :
    (mkTimesheetRow r t).Name = r.Name := rfl

theorem mkTimesheetRow_total (r : DailyRecord) (t : Option ℚ) :
    (mkTimesheetRow r t).TotalHoursThisWeek = t := rfl

theorem mkTimesheetRow_hours (r : DailyRecord) (t : Option ℚ) :
    (mkTimesheetRow r t).HoursWorked = r.HoursWorked := rfl

theorem attachTotals_filter_none (win : List DailyRecord) :
    ∀ (l : List DailyRecord) (seen : List String) (nm : String), nm ∈ seen →
      ∀ r ∈ (attachTotals win l seen).filter (fun r => r.Name == nm),
        r.TotalHoursThisWeek = none := by
  intro l
  induction l with
  | nil => intro seen nm _ r hr; simp [attachTotals] at hr
  | cons a t ih =>
    intro seen nm hnm r hr
    rw [attachTotals, List.filter_cons] at hr
    by_cases hname : (a.Name == nm) = true
    · rw [if_pos (by simpa [mkTimesheetRow_name] using hname)] at hr
      rcases List.mem_cons.mp hr with rfl | hr'
      · rw [mkTimesheetRow_total]
        have hanm : a.Name = nm := by simpa using hname
        rw [if_pos ((contains_iff_mem seen a.Name).mpr (hanm ▸ hnm))]
      · exact ih (a.Name :: seen) nm (List.mem_cons_of_mem _ hnm) r hr'
    · rw [if_neg (by simpa [mkTimesheetRow_name] using hname)] at hr
      exact ih (a.Name :: seen) nm (List.mem_cons_of_mem _ hnm) r hr

theorem attachTotals_filter_first (win : List DailyRecord) :
    ∀ (l : List DailyRecord) (seen : List String) (nm : String), nm ∉ seen →
      ∀ (r0 : TimesheetRow) (rest : List TimesheetRow),
        (attachTotals win l seen).filter (fun r => r.Name == nm) = r0 :: rest →
          r0.TotalHoursThisWeek = some (personTotal win nm) ∧
          ∀ r ∈ rest, r.TotalHoursThisWeek = none := by
  intro l
  induction l with
  | nil => intro seen nm _ r0 rest h; simp [attachTotals] at h
  | cons a t ih =>
    intro seen nm hnm r0 rest h
    rw [attachTotals, List.filter_cons] at h
    by_cases hname : (a.Name == nm) = true
    · rw [if_pos (by simpa [mkTimesheetRow_name] using hname)] at h
      have hanm : a.Name = nm := by simpa using hname
      injection h with h0 hrest
      constructor
      · have hcontains : ¬ (seen.contains a.Name = true) := by
          intro hc
          exact hnm (hanm ▸ (contains_iff_mem seen a.Name).mp hc)
        rw [← h0, mkTimesheetRow_total, if_neg hcontains, hanm]
      · intro r hr
        rw [← hrest] at hr
        exact attachTotals_filter_none win t (a.Name :: seen) nm
          (hanm ▸ List.mem_cons_self _ _) r hr
    · rw [if_neg (by simpa [mkTimesheetRow_name] using hname)] at h
      refine ih (a.Name :: seen) nm ?_ r0 rest h
      intro hc
      rcases List.mem_cons.mp hc with h1 | h1
      · exact hname (by simp [h1])
      · exact hnm h1

theorem attachTotals_filter_hours (win : List DailyRecord) :
    ∀ (l : List DailyRecord) (seen : List String) (nm : String),
      ((attachTotals win l seen).filter (fun r => r.Name == nm)).map
          (fun r => r.HoursWorked) =
        (l.filter (fun r => r.Name == nm)).map (fun r => r.HoursWorked) := by
  intro l
  induction l with
  | nil => intro seen nm; rfl
  | cons a t ih =>
    intro seen nm
    rw [attachTotals, List.filter_cons, List.filter_cons]
    by_cases hname : (a.Name == nm) = true
    · rw [if_pos (by simpa [mkTimesheetRow_name] using hname), if_pos hname]
      simp only [List.map_cons, mkTimesheetRow_hours]
      rw [ih (a.Name :: seen) nm]
    · rw [if_neg (by simpa [mkTimesheetRow_name] using hname), if_neg hname]
      exact ih (a.Name :: seen) nm

/-! ## Characterizations of the string scanners -/

theorem startsWithCh_iff : ∀ (p s : Chars), startsWithCh p s = true ↔ ∃ t, s = p ++ t := by
  intro p
  induction p with
  | nil => intro s; simp [startsWithCh]
  | cons a p ih =>
    intro s
    cases s with
    | nil =>
      simp only [startsWithCh]
      constructor
      · intro h; cases h
      · rintro ⟨t, ht⟩; cases ht
    | cons b s' =>
      simp only [startsWithCh, Bool.and_eq_true, decide_eq_true_eq]
      rw [ih s']
      constructor
      · rintro ⟨rfl, t, rfl⟩
        exact ⟨t, rfl⟩
      · rintro ⟨t, ht⟩
        rw [List.cons_append] at ht
        injection ht with h1 h2
        exact ⟨h1.symm, t, h2⟩

theorem hasSubstr_iff : ∀ (s p : Chars), hasSubstr p s = true ↔ p <:+: s := by
  intro s
  induction s with
  | nil =>
    intro p
    rw [hasSubstr, startsWithCh_iff, List.infix_nil]
    constructor
    · rintro ⟨t, ht⟩
      rcases List.append_eq_nil.mp ht.symm with ⟨h1, _⟩
      exact h1
    · rintro rfl; exact ⟨[], rfl⟩
  | cons c t ih =>
    intro p
    rw [hasSubstr, Bool.or_eq_true, startsWithCh_iff, ih, List.infix_cons_iff]
    constructor
    · rintro (⟨u, hu⟩ | h)
      · exact Or.inl ⟨u, hu.symm⟩
      · exact Or.inr h
    · rintro (⟨u, hu⟩ | h)
      · exact Or.inl ⟨u, hu.symm⟩
      · exact Or.inr h

theorem wwHere_iff (kw s : Chars) :
    wwHere kw s = true ↔
      ∃ post, s = kw ++ post ∧ ∀ c, post.head? = some c → isWordCh c = false := by
  rw [wwHere, Bool.and_eq_true, startsWithCh_iff]
  constructor
  · rintro ⟨⟨post, rfl⟩, hcond⟩
    refine ⟨post, rfl, ?_⟩
    intro c hc
    rw [List.drop_left] at hcond
    cases post with
    | nil => cases hc
    | cons d post' =>
      injection hc with hdc
      subst hdc
      simpa using hcond
  · rintro ⟨post, rfl, hcond⟩
    refine ⟨⟨post, rfl⟩, ?_⟩
    rw [List.drop_left]
    cases post with
    | nil => rfl
    | cons d post' => simpa using hcond d rfl

theorem wwSearch_iff (kw : Chars) (hkw : kw ≠ []) :
    ∀ (s : Chars) (b : Bool),
      wwSearch kw b s = true ↔
        ∃ pre post, s = pre ++ kw ++ post ∧
          (pre = [] → b = true) ∧
          (∀ c, pre.getLast? = some c → isWordCh c = false) ∧
          (∀ c, post.head? = some c → isWordCh c = false) := by
  intro s
  induction s with
  | nil =>
    intro b
    simp only [wwSearch]
    constructor
    · intro h; cases h
    · rintro ⟨pre, post, heq, -, -, -⟩
      exfalso
      have hlen := congrArg List.length heq
      simp only [List.length_nil, List.length_append] at hlen
      have hk : kw.length ≠ 0 := fun h => hkw (List.length_eq_zero.mp h)
      omega
  | cons c t ih =>
    intro b
    simp only [wwSearch, Bool.or_eq_true, Bool.and_eq_true]
    constructor
    · rintro (⟨hb, hww⟩ | hrec)
      · obtain ⟨post, heq, hpost⟩ := (wwHere_iff kw (c :: t)).mp hww
        exact ⟨[], post, by simpa using heq, fun _ => hb, by simp, hpost⟩
      · obtain ⟨pre, post, heq, hpre0, hpreL, hpost⟩ := (ih (!isWordCh c)).mp hrec
        refine ⟨c :: pre, post, by simp [heq], by simp, ?_, hpost⟩
        intro d hd
        cases pre with
        | nil =>
          simp only [List.getLast?_singleton, Option.some.injEq] at hd
          subst hd
          have := hpre0 rfl
          simpa using this
        | cons p ps =>
          rw [List.getLast?_cons_cons] at hd
          exact hpreL d hd
    · rintro ⟨pre, post, heq, hpre0, hpreL, hpost⟩
      cases pre with
      | nil =>
        left
        refine ⟨hpre0 rfl, ?_⟩
        exact (wwHere_iff kw (c :: t)).mpr ⟨post, by simpa using heq, hpost⟩
      | cons p ps =>
        right
        simp only [List.cons_append, List.append_assoc] at heq
        injection heq with h1 h2
        subst h1
        refine (ih (!isWordCh c)).mpr ⟨ps, post, by simpa [List.append_assoc] using h2, ?_, ?_, hpost⟩
        · intro hps
          subst hps
          have := hpreL c (by simp)
          simp [this]
        · intro d hd
          cases ps with
          | nil => cases hd
          | cons q qs =>
            exact hpreL d (by rw [List.getLast?_cons_cons]; exact hd)

theorem hasWholeWord_iff (kw s : Chars) (hkw : kw ≠ []) :
    hasWholeWord kw s = true ↔ OccursWholeWord kw s := by
  rw [hasWholeWord, wwSearch_iff kw hkw s true, OccursWholeWord]
  constructor
  · rintro ⟨pre, post, h1, -, h3, h4⟩
    exact ⟨pre, post, h1, h3, h4⟩
  · rintro ⟨pre, post, h1, h3, h4⟩
    exact ⟨pre, post, h1, fun _ => rfl, h3, h4⟩

theorem keyword_data_ne_nil : ∀ kw ∈ keywordList, kw.data ≠ [] := by decide

/-! ## Claim C1 -/

/-- C1 (counterexample): the claim says membership in the IN-set holds only
for whole-word occurrences, and that a message whose only whole-word keyword
is an OUT-set word is never treated as a clock-in.  The pairing
classification of line 60 is substring-based: "checking out" carries the
OUT-word "out" as its only whole-word keyword, yet `isInMsg` accepts it
(via the bare substring "in" inside "checking"), it passes the line-42
filter, and the pairer emits it as the clock-in of an interval. -/
theorem C1_counterexample :
    isInMsg "checking out" = true ∧
    hasWholeWord "in".data "checking out".data = false ∧
    hasWholeWord "back".data "checking out".data = false ∧
    hasWholeWord "return".data "checking out".data = false ∧
    hasWholeWord "out".data "checking out".data = true ∧
    keepMessage "checking out" = true ∧
    pairScan [⟨"a", 0, "checking out"⟩, ⟨"a", 100, "out"⟩] =
      [(⟨"a", 0, "checking out"⟩, ⟨"a", 100, "out"⟩)] := by
  decide

/-- C1 (amended): the line-42 pre-filter is whole-word for the five
keywords, but the line-60 pairing classification is plain substring
containment in both sets; "irontown" matches neither set (no IN keyword
occurs in it even as a substring). -/
theorem C1_amended :
    (∀ msg : String, keepMessage msg = true ↔
      ∃ kw ∈ keywordList, OccursWholeWord kw.data msg.data) ∧
    (∀ msg : String, isInMsg msg = true ↔ ∃ kw ∈ inKeywords, kw.data <:+: msg.data) ∧
    (∀ msg : String, isOutMsg msg = true ↔ ∃ kw ∈ outKeywords, kw.data <:+: msg.data) ∧
    isInMsg "irontown" = false ∧ isOutMsg "irontown" = false ∧
    keepMessage "irontown" = false := by
  refine ⟨?_, ?_, ?_, by decide, by decide, by decide⟩
  · intro msg
    rw [keepMessage, List.any_eq_true]
    constructor
    · rintro ⟨kw, hkw, h⟩
      exact ⟨kw, hkw, (hasWholeWord_iff kw.data msg.data (keyword_data_ne_nil kw hkw)).mp h⟩
    · rintro ⟨kw, hkw, h⟩
      exact ⟨kw, hkw, (hasWholeWord_iff kw.data msg.data (keyword_data_ne_nil kw hkw)).mpr h⟩
  · intro msg
    rw [isInMsg, List.any_eq_true]
    constructor
    · rintro ⟨kw, hkw, h⟩
      exact ⟨kw, hkw, (hasSubstr_iff msg.data kw.data).mp h⟩
    · rintro ⟨kw, hkw, h⟩
      exact ⟨kw, hkw, (hasSubstr_iff msg.data kw.data).mpr h⟩
  · intro msg
    rw [isOutMsg, List.any_eq_true]
    constructor
    · rintro ⟨kw, hkw, h⟩
      exact ⟨kw, hkw, (hasSubstr_iff msg.data kw.data).mp h⟩
    · rintro ⟨kw, hkw, h⟩
      exact ⟨kw, hkw, (hasSubstr_iff msg.data kw.data).mpr h⟩

/-- C1 (witness): the amended characterizations evaluated at "lunch out
back", which has whole-word keywords in both sets. -/
theorem C1_witness :
    (∃ kw ∈ keywordList, OccursWholeWord kw.data "lunch out back".data) ∧
    (∃ kw ∈ inKeywords, kw.data <:+: "lunch out back".data) ∧
    (∃ kw ∈ outKeywords, kw.data <:+: "lunch out back".data) :=
  ⟨(C1_amended.1 "lunch out back").mp (by decide),
   (C1_amended.2.1 "lunch out back").mp (by decide),
   (C1_amended.2.2.1 "lunch out back").mp (by decide)⟩

/-! ## Claim C2 -/

/-- C2: the Interval Pairer is exactly the two-pointer greedy scan: fewer
than two remaining events end the scan; an IN-like event directly followed
by an OUT-like event emits one interval and consumes both; otherwise the
head event is dropped; no event is ever reused (the events of the emitted
intervals form a sublist of the group, and at most ⌊N/2⌋ intervals arise);
and the group `[in, in, out]` yields exactly one interval pairing the
second and third events. -/
theorem C2_greedy_scan :
    (∀ l : List Event, l.length < 2 → pairScan l = []) ∧
    (∀ (e1 e2 : Event) (rest : List Event),
      (isInMsg e1.message && isOutMsg e2.message) = true →
      pairScan (e1 :: e2 :: rest) = (e1, e2) :: pairScan rest) ∧
    (∀ (e1 e2 : Event) (rest : List Event),
      (isInMsg e1.message && isOutMsg e2.message) = false →
      pairScan (e1 :: e2 :: rest) = pairScan (e2 :: rest)) ∧
    (∀ l : List Event, ((pairScan l).flatMap (fun p => [p.1, p.2])).Sublist l) ∧
    (∀ l : List Event, (pairScan l).length ≤ l.length / 2) ∧
    dailyPairs gInInOut =
      [(("a", daysFromCivil 2025 1 6),
        ⟨"a", mkTs 2025 1 6 10 0 0, "in"⟩, ⟨"a", mkTs 2025 1 6 17 0 0, "out"⟩)] := by
  refine ⟨pairScan_short, pairScan_eq_cons, ?_, pairScan_used_sublist,
    pairScan_length_le, by decide⟩
  intro e1 e2 rest h
  exact pairScan_eq_skip e1 e2 rest h

/-- C2 (witness): the emit and skip rules applied at concrete groups. -/
theorem C2_witness :
    pairScan [⟨"w", 0, "in"⟩, ⟨"w", 60, "out"⟩] = [(⟨"w", 0, "in"⟩, ⟨"w", 60, "out"⟩)] ∧
    pairScan [⟨"w", 0, "out"⟩, ⟨"w", 60, "out"⟩] = pairScan [⟨"w", 60, "out"⟩] := by
  constructor
  · exact (C2_greedy_scan.2.1 ⟨"w", 0, "in"⟩ ⟨"w", 60, "out"⟩ [] (by decide)).trans (by decide)
  · exact C2_greedy_scan.2.2.1 ⟨"w", 0, "out"⟩ ⟨"w", 60, "out"⟩ [] (by decide)

/-! ## Claim C6 -/

/-- C6 (counterexample): the claim's invariant is the strict inequality
`clock-in.timestamp < clock-out.timestamp`; two events sharing a timestamp
are paired into a zero-length interval whose clock-in equals its clock-out,
refuting strictness. -/
theorem C6_counterexample :
    dailyPairs gEq =
      [(("a", daysFromCivil 2025 1 6),
        ⟨"a", mkTs 2025 1 6 9 0 0, "in"⟩, ⟨"a", mkTs 2025 1 6 9 0 0, "out"⟩)] ∧
    (⟨"a", mkTs 2025 1 6 9 0 0, "in"⟩ : Event).timestamp =
      (⟨"a", mkTs 2025 1 6 9 0 0, "out"⟩ : Event).timestamp := by
  exact ⟨by decide, rfl⟩

/-- C6 (amended): every emitted interval satisfies the non-strict
invariant `clock-in.timestamp ≤ clock-out.timestamp`, and both events lie
on the group's calendar day and belong to the group's person. -/
theorem C6_amended :
    ∀ (df : List Event) (k : String × Int) (p : Event × Event),
      (k, p) ∈ dailyPairs df →
      p.1.timestamp ≤ p.2.timestamp ∧
      dateOf p.1.timestamp = k.2 ∧ dateOf p.2.timestamp = k.2 ∧
      p.1.name = k.1 ∧ p.2.name = k.1 := by
  intro df k p hmem
  rw [dailyPairs, List.mem_flatMap] at hmem
  obtain ⟨k', hk', hp⟩ := hmem
  rw [List.mem_map] at hp
  obtain ⟨p', hp', hpe⟩ := hp
  cases hpe
  have hle := pairScan_pairs_le _ (groupFor_pairwise (windowedEvents df) k) p hp'
  obtain ⟨hm1, hm2⟩ := pairScan_pairs_mem _ p hp'
  have he1 := ((mem_groupFor (windowedEvents df) k p.1).mp hm1).2
  have he2 := ((mem_groupFor (windowedEvents df) k p.2).mp hm2).2
  rw [eventKey] at he1 he2
  refine ⟨hle, ?_, ?_, ?_, ?_⟩
  · exact (Prod.mk.injEq _ _ _ _ ▸ he1).2
  · exact (Prod.mk.injEq _ _ _ _ ▸ he2).2
  · exact (Prod.mk.injEq _ _ _ _ ▸ he1).1
  · exact (Prod.mk.injEq _ _ _ _ ▸ he2).1

/-- C6 (witness): the amended invariant at the equal-timestamp group. -/
theorem C6_witness :
    (⟨"a", mkTs 2025 1 6 9 0 0, "in"⟩ : Event).timestamp ≤
      (⟨"a", mkTs 2025 1 6 9 0 0, "out"⟩ : Event).timestamp ∧
    dateOf (⟨"a", mkTs 2025 1 6 9 0 0, "in"⟩ : Event).timestamp = daysFromCivil 2025 1 6 := by
  have h := C6_amended gEq ("a", daysFromCivil 2025 1 6)
    (⟨"a", mkTs 2025 1 6 9 0 0, "in"⟩, ⟨"a", mkTs 2025 1 6 9 0 0, "out"⟩) (by decide)
  exact ⟨h.1, h.2.1⟩

/-! ## Claim C7 -/

/-- C7 (counterexample): the claim says the candidate list contains a
4-digit-year format, so a structurally valid line with a 4-digit year and
an H:MM:SS AM/PM time yields an Event.  The code's two candidates both use
`%y` (exactly two digits), so that line matches the structural pattern but
fails both `strptime` calls and is dropped. -/
theorem C7_counterexample :
    (matchCustomPattern line4y.data).isSome = true ∧
    parseLine line4y.data = none ∧
    parse_custom_format line4y = [] := by
  decide

/-- C7 (amended): for every line matching the structural pattern the parser
attempts exactly two timestamp candidates in order — 2-digit-year 12-hour
WITHOUT seconds first, then 2-digit-year 12-hour WITH seconds — taking the
first success; a 2-digit-year line with an H:MM:SS AM/PM time yields an
Event via the second candidate. -/
theorem C7_amended :
    (∀ (l : Chars) (v : Int), strptimeNoSec l = some v → parseTimestamp l = some v) ∧
    (∀ (l : Chars) (v : Int), strptimeNoSec l = none → strptimeWithSec l = some v →
      parseTimestamp l = some v) ∧
    (∀ l : Chars, strptimeNoSec l = none → strptimeWithSec l = none →
      parseTimestamp l = none) ∧
    parse_custom_format "[01/06/25, 09:00:00 AM] Alice: in" =
      [{ name := "Alice", timestamp := mkTs 2025 1 6 9 0 0, message := "in" }] := by
  refine ⟨?_, ?_, ?_, by decide⟩
  · intro l v h
    simp only [parseTimestamp, h]
  · intro l v h1 h2
    simp only [parseTimestamp, h1, h2]
  · intro l h1 h2
    simp only [parseTimestamp, h1, h2]

/-- C7 (witness): the two candidates exercised at concrete timestamps. -/
theorem C7_witness :
    parseTimestamp "01/06/25 9:00 AM".data = some (mkTs 2025 1 6 9 0 0) ∧
    parseTimestamp "01/06/25 9:00:00 AM".data = some (mkTs 2025 1 6 9 0 0) := by
  constructor
  · exact C7_amended.1 _ _ (by decide)
  · exact C7_amended.2.1 _ _ (by decide) (by decide)

/-! ## Claim C9 -/

/-- C9: the Line Parser is total and exception-free: a line that does not
match the structural pattern yields no Event, a matching line whose
timestamp fails both format candidates yields no Event, and
`parse_custom_format` is the total function collecting the per-line
results (failures contribute nothing). -/
theorem C9_parser_total :
    (∀ l : Chars, matchCustomPattern l = none → parseLine l = none) ∧
    (∀ (l : Chars) (ds tsS nm msg : Chars),
      matchCustomPattern l = some (ds, tsS, nm, msg) →
      parseTimestamp (ds ++ ' ' :: stripChars tsS) = none → parseLine l = none) ∧
    (∀ text : String,
      parse_custom_format text = (splitLinesAux text.data []).filterMap parseLine) := by
  refine ⟨?_, ?_, fun _ => rfl⟩
  · intro l h
    simp only [parseLine, h]
  · intro l ds tsS nm msg h ht
    simp only [parseLine, h, ht]

/-- C9 (witness): a structurally invalid line and a structurally valid line
with an invalid timestamp (minute 61) are both dropped silently. -/
theorem C9_witness :
    parseLine "hello".data = none ∧
    parseLine "[1/1/25, 9:61 PM] A: in".data = none := by
  constructor
  · exact C9_parser_total.1 "hello".data (by decide)
  · exact C9_parser_total.2.1 "[1/1/25, 9:61 PM] A: in".data
      "1/1/25".data "9:61 PM".data "A".data "in".data (by decide) (by decide)

/-! ## Claim C3 -/

/-- C3: for every input and every row of the Weekly Summary, the Total
Hours value equals the sum of the matching person's Daily Work Log
"Hours Worked" entries whose Week label matches. -/
theorem C3_weekly_consistency :
    ∀ (text : String) (n w : String) (t : ℚ),
      (n, w, t) ∈ (calculate_hours (parse_custom_format text)).2 →
      t = sumHours ((calculate_hours (parse_custom_format text)).1.filter
        (fun r => r.Name == n && r.Week == w)) := by
  intro text n w t hmem
  simp only [calculate_hours] at hmem ⊢
  rw [weekly_summary, List.mem_map] at hmem
  obtain ⟨k, hk, hkeq⟩ := hmem
  simp only [Prod.mk.injEq] at hkeq
  obtain ⟨h1, h2, h3⟩ := hkeq
  subst h1
  subst h2
  exact h3.symm

unseal Rat.add Rat.mul Rat.inv Rat.sub in
/-- C3 (witness): the consistency law at the spec's end-to-end scenario
(Alice, week "Jan 06 - Jan 12 2025", total 15.75 hours). -/
theorem C3_witness :
    ("Alice", "Jan 06 - Jan 12 2025", (63 : ℚ)/4) ∈
      (calculate_hours (parse_custom_format demo)).2 ∧
    (63 : ℚ)/4 = sumHours ((calculate_hours (parse_custom_format demo)).1.filter
      (fun r => r.Name == "Alice" && r.Week == "Jan 06 - Jan 12 2025")) :=
  ⟨by decide,
   C3_weekly_consistency demo "Alice" "Jan 06 - Jan 12 2025" ((63 : ℚ)/4) (by decide)⟩

/-! ## Claim C4 -/

unseal Rat.add Rat.mul Rat.inv Rat.sub in
/-- C4 (counterexample): the claim requires the seven weekdays to be
covered by a single person and says a week covered only by pooling
different people does not qualify.  In `recs7` the seven weekdays of ISO
week (2025, 2) are covered by seven different people (the names are
pairwise distinct, one row each), yet the code selects that week and
returns a non-empty timesheet. -/
theorem C4_counterexample :
    (recs7.map (fun r => r.Name)).Nodup ∧
    recs7.length = 7 ∧
    get_last_week_data recs7 =
      some (lwRows7, daysFromCivil 2025 1 6, daysFromCivil 2025 1 12) ∧
    lwRows7 ≠ [] := by
  refine ⟨by decide, by decide, by decide, by decide⟩

/-- C4 (amended): the timesheet is empty exactly when no (year, week) group
has pooled weekday coverage (over all persons) of Monday–Sunday; otherwise
the selected week is the lexicographically most recent fully covered
(year, week) pair, and the rows are exactly that week's Daily Work Log
rows with the per-person de-duplicated totals attached. -/
theorem C4_amended :
    (∀ daily : List DailyRecord,
      (get_last_week_data daily).isNone ↔ complete_weeks daily = []) ∧
    (∀ (daily : List DailyRecord) (rows : List TimesheetRow) (m s : Int),
      get_last_week_data daily = some (rows, m, s) →
      ∃ k, k ∈ complete_weeks daily ∧ (∀ j ∈ complete_weeks daily, pairLe j k) ∧
        rows = attachTotals (lastWeekWindow daily k) (lastWeekWindow daily k) []) := by
  constructor
  · intro daily
    by_cases hempty : daily.isEmpty = true
    · have hdaily : daily = [] := by simpa using hempty
      subst hdaily
      simp [get_last_week_data, complete_weeks, dedupFirst, dedupFirstAux]
    · rw [get_last_week_data, if_neg hempty]
      cases hmax : pairMax (complete_weeks daily) with
      | none => simp [(pairMax_eq_none _).mp hmax]
      | some k =>
        have hk := (pairMax_spec _ k hmax).1
        simp only [Option.isNone_some, Bool.false_eq_true, false_iff]
        intro h
        rw [h] at hk
        cases hk
  · intro daily rows m s h
    rw [get_last_week_data] at h
    split at h
    · cases h
    · split at h
      · cases h
      · rename_i k hmax
        obtain ⟨hkmem, hkmax⟩ := pairMax_spec _ k hmax
        injection h with h1
        injection h1 with hrows
        exact ⟨k, hkmem, hkmax, hrows.symm⟩

unseal Rat.add Rat.mul Rat.inv Rat.sub in
/-- C4 (witness): the amended selection rule applied to `recs7`. -/
theorem C4_witness :
    ∃ k, k ∈ complete_weeks recs7 ∧ (∀ j ∈ complete_weeks recs7, pairLe j k) ∧
      lwRows7 = attachTotals (lastWeekWindow recs7 k) (lastWeekWindow recs7 k) [] :=
  C4_amended.2 recs7 lwRows7 (daysFromCivil 2025 1 6) (daysFromCivil 2025 1 12) (by decide)

/-! ## Claim C5 -/

/-- C5: an event survives the Week Windower exactly when it survives the
keyword filter and fewer than 4 distinct ISO (year, week) pairs of the
filtered stream are more recent than the event's own pair; the decision is
per raw event, before grouping and pairing.  In the 6-week example the
windowed stream carries only the 4 newest weeks, and the Daily Work Log
carries only those weeks' labels. -/
theorem C5_window :
    (∀ (df : List Event) (e : Event),
      e ∈ windowedEvents df ↔
        e ∈ filteredEvents df ∧
          (dedupFirst ((filteredEvents df).map eventWeek)).countP
              (fun q => decide (pairLt (eventWeek e) q)) < 4) ∧
    (windowedEvents ev6).map eventWeek =
      [(2025, 4), (2025, 4), (2025, 5), (2025, 5),
       (2025, 6), (2025, 6), (2025, 7), (2025, 7)] ∧
    (dailyRecords ev6).map (fun r => r.Week) =
      ["Jan 20 - Jan 26 2025", "Jan 27 - Feb 02 2025",
       "Feb 03 - Feb 09 2025", "Feb 10 - Feb 16 2025"] := by
  refine ⟨?_, by decide, by decide⟩
  intro df e
  have hperm := insertionSort_perm pairDescB (dedupFirst ((filteredEvents df).map eventWeek))
  have hnd : (insertionSort pairDescB
      (dedupFirst ((filteredEvents df).map eventWeek))).Nodup :=
    (hperm.nodup_iff).mpr (nodup_dedupFirst _)
  have hsorted := pairwise_insertionSort pairDescB pairDescB_total pairDescB_trans
    (dedupFirst ((filteredEvents df).map eventWeek))
  have hcount := hperm.countP_eq (fun q => decide (pairLt (eventWeek e) q))
  rw [windowedEvents, List.mem_filter]
  constructor
  · rintro ⟨hf, hcontains⟩
    refine ⟨hf, ?_⟩
    have hmem := (contains_iff_mem _ _).mp hcontains
    rw [latest_weeks] at hmem
    have h := (mem_take_iff_rank _ hnd hsorted 4 (eventWeek e)).mp hmem
    rw [hcount] at h
    exact h.2
  · rintro ⟨hf, hcnt⟩
    refine ⟨hf, ?_⟩
    rw [contains_iff_mem, latest_weeks]
    refine (mem_take_iff_rank _ hnd hsorted 4 (eventWeek e)).mpr ⟨?_, ?_⟩
    · rw [hperm.mem_iff, mem_dedupFirst]
      exact List.mem_map_of_mem eventWeek hf
    · rw [hcount]
      exact hcnt

/-- C5 (witness): the window membership rule at a concrete newest-week
event of the 6-week example. -/
theorem C5_witness :
    (⟨"a", mkTs 2025 1 6 9 0 0 + 86400 * 7 * 5, "in"⟩ : Event) ∈ windowedEvents ev6 :=
  (C5_window.1 ev6 ⟨"a", mkTs 2025 1 6 9 0 0 + 86400 * 7 * 5, "in"⟩).mpr (by decide)

/-! ## Claim C8 -/

/-- C8: in the Current/Last-Week Timesheet, for every person with at least
one row, the first of that person's rows (in output order) carries
`some` total equal to the sum of the person's hours over the window's rows,
and every later row of that person carries an empty total. -/
theorem C8_total_on_first_row :
    ∀ (daily : List DailyRecord) (rows : List TimesheetRow) (m s : Int) (nm : String)
      (r0 : TimesheetRow) (rest : List TimesheetRow),
      get_last_week_data daily = some (rows, m, s) →
      rows.filter (fun r => r.Name == nm) = r0 :: rest →
      r0.TotalHoursThisWeek =
        some (((rows.filter (fun r => r.Name == nm)).map (fun r => r.HoursWorked)).sum) ∧
      ∀ r ∈ rest, r.TotalHoursThisWeek = none := by
  intro daily rows m s nm r0 rest h hfilter
  rw [get_last_week_data] at h
  split at h
  · cases h
  · split at h
    · cases h
    · rename_i k hmax
      injection h with h1
      injection h1 with hrows
      subst hrows
      obtain ⟨h1, h2⟩ := attachTotals_filter_first (lastWeekWindow daily k)
        (lastWeekWindow daily k) [] nm (by simp) r0 rest hfilter
      refine ⟨?_, h2⟩
      rw [h1, hfilter]
      congr 1
      rw [personTotal, sumHours,
        ← attachTotals_filter_hours (lastWeekWindow daily k) (lastWeekWindow daily k) [] nm,
        hfilter]

unseal Rat.add Rat.mul Rat.inv Rat.sub in
/-- C8 (witness): the rule at `recs7`, person "a" (one row, total 1). -/
theorem C8_witness :
    (mkTimesheetRow (recOf "a" 2025 1 6) (some 1)).TotalHoursThisWeek =
      some (((lwRows7.filter (fun r => r.Name == "a")).map (fun r => r.HoursWorked)).sum) ∧
    ∀ r ∈ ([] : List TimesheetRow), r.TotalHoursThisWeek = none :=
  C8_total_on_first_row recs7 lwRows7 (daysFromCivil 2025 1 6) (daysFromCivil 2025 1 12)
    "a" (mkTimesheetRow (recOf "a" 2025 1 6) (some 1)) [] (by decide) (by decide)

/-! ## Claim C10 -/

/-- C10: the week label prints the year of the week's Sunday (the span's
end); the label is a function of the calendar date alone; and the
Dec 29, 2025 – Jan 4, 2026 span is labeled with the later year 2026
although its Monday lies in 2025. -/
theorem C10_label_year :
    (∀ ts : Int, (get_week_range ts).2.2 =
      fmtMonthDay (dateOf ts - (weekdayOfDay (dateOf ts) : Int)) ++ " - " ++
      fmtMonthDay (dateOf ts - (weekdayOfDay (dateOf ts) : Int) + 6) ++ " " ++
      toString (yearOfDay (dateOf ts - (weekdayOfDay (dateOf ts) : Int) + 6))) ∧
    (∀ t1 t2 : Int, dateOf t1 = dateOf t2 →
      (get_week_range t1).2.2 = (get_week_range t2).2.2) ∧
    (get_week_range (mkTs 2025 12 31 13 0 0)).2.2 = "Dec 29 - Jan 04 2026" ∧
    dateOf (mkTs 2025 12 31 13 0 0) -
      (weekdayOfDay (dateOf (mkTs 2025 12 31 13 0 0)) : Int) = daysFromCivil 2025 12 29 ∧
    yearOfDay (daysFromCivil 2025 12 29) = 2025 ∧
    yearOfDay (daysFromCivil 2025 12 29 + 6) = 2026 := by
  refine ⟨fun ts => rfl, ?_, by decide, by decide, by decide, by decide⟩
  intro t1 t2 h
  simp only [get_week_range, h]

/-- C10 (witness): two timestamps on the same day get the same label. -/
theorem C10_witness :
    (get_week_range (mkTs 2025 12 31 13 0 0)).2.2 =
      (get_week_range (mkTs 2025 12 31 2 30 0)).2.2 :=
  C10_label_year.2.1 (mkTs 2025 12 31 13 0 0) (mkTs 2025 12 31 2 30 0) (by decide)

end ClockApp
